import Mathlib

/-!
Verification development for the kontract.ai contract drift detection
repository.  The frontend (API client, types, pages) is embedded from the
TypeScript sources; the backend clause pipeline (normalizer, segmenter,
fingerprint engine, drift detector, risk classifier) is not among the
repository files available, so those components are modelled from the
specification, as marked in each doc comment.
-/

/-- Clause category taxonomy.  Modelled from the spec: the fixed taxonomy of
the Clause Segmenter, "liability, termination, data-processing, IP,
SLA-metrics, payment, confidentiality, other". -/
inductive Category
  | liability
  | termination
  | dataProcessing
  | ip
  | slaMetrics
  | payment
  | confidentiality
  | other
deriving DecidableEq, Repr

/-- Change classification. Modelled from the spec: the drift detector's edit
script vocabulary "added / removed / modified / rewritten / unchanged". -/
inductive ChangeType
  | added
  | removed
  | modified
  | rewritten
  | unchanged
deriving DecidableEq, Repr

/-- Risk band. Modelled from the spec: the four discrete severity levels. -/
inductive RiskLevel
  | low
  | medium
  | high
  | critical
deriving DecidableEq, Repr

/-- Clause record. Modelled from the spec's data model; the position fields,
which no claim mentions, are omitted. -/
structure Clause where
  clauseNumber : Nat
  category : Option Category
  heading : Option String
  text : String
deriving DecidableEq, Repr

/-- Fingerprint record. Modelled from the spec: exact digest, fixed-width bit
signature, and sparse term-weight mapping. -/
structure Fingerprint where
  textHash : Nat
  simhash : Nat
  keywords : List (String × Nat)
deriving DecidableEq, Repr

/-- Whitespace test used for normalization and tokenization. -/
def isWs (c : Char) : Bool := c = ' ' || c = '\n' || c = '\t' || c = '\r'

/-- Token list of a text: maximal nonempty runs between whitespace,
lower-cased. Modelled from the spec's whitespace normalization. -/
def tokens (t : String) : List String :=
  ((t.map Char.toLower).split isWs).filter (fun w => w ≠ "")

/-- Whitespace-collapsed form of a text. Modelled from the spec: fingerprints
are computed on whitespace-normalized text. -/
def normalizeWs (t : String) : String := String.intercalate " " (tokens t)

/-- One step of the rolling exact-content hash. -/
def hashStep (h : Nat) (c : Char) : Nat := (h * 131 + c.toNat) % 2 ^ 64

/-- Exact-content hash of the normalized text. Modelled from the spec's
text hash used for exact-duplicate short-circuiting. -/
def textHash (t : String) : Nat := (normalizeWs t).foldl hashStep 7

/-- Hash of a single token into 16 bits, for the simhash signature. -/
def tokenHash (w : String) : Nat :=
  w.foldl (fun h c => (h * 31 + c.toNat) % 2 ^ 16) 5381

/-- Bit b of the simhash signature: set when at least half of the tokens have
bit b set in their token hash. -/
def simhashBit (ws : List String) (b : Nat) : Bool :=
  ws.length ≤ 2 * ws.countP (fun w => (tokenHash w >>> b) % 2 = 1)

/-- Locality-sensitive 16-bit signature. Modelled from the spec: a fixed-width
bit signature built from weighted token features. -/
def simhash (t : String) : Nat :=
  (List.range 16).foldl
    (fun acc b => acc + (if simhashBit (tokens t) b then 2 ^ b else 0)) 0

/-- Sparse term-weight mapping of a text: each distinct token with its
occurrence count. Modelled from the spec's keyword vector. -/
def keywords (t : String) : List (String × Nat) :=
  (tokens t).dedup.map (fun w => (w, (tokens t).count w))

/-- Fingerprint of a clause text. Modelled from the spec: a pure function of
the whitespace-normalized text. -/
def fingerprint (t : String) : Fingerprint :=
  { textHash := textHash t, simhash := simhash t, keywords := keywords t }

/-- Hamming distance between two 16-bit signatures. -/
def hamming16 (a b : Nat) : Nat :=
  (List.range 16).countP (fun i => (a >>> i) % 2 ≠ (b >>> i) % 2)

/-- Total weight of a keyword vector. -/
def keywordTotal (ks : List (String × Nat)) : Nat := (ks.map Prod.snd).sum

/-- Shared weight of two keyword vectors: for each term of the first, the
smaller of the two weights. -/
def keywordOverlap (ka kb : List (String × Nat)) : Nat :=
  (ka.map (fun p =>
    min p.2 (((kb.find? (fun q => q.1 == p.1)).map Prod.snd).getD 0))).sum

/-- Similarity of two clause texts in [0, 1]. Modelled from the spec: a
weighted combination of keyword-vector similarity and simhash Hamming
proximity. -/
def pairSim (a b : String) : ℚ :=
  let ka := keywords a
  let kb := keywords b
  let dice : ℚ :=
    if keywordTotal ka + keywordTotal kb = 0 then 0
    else (2 * keywordOverlap ka kb : ℚ) / ((keywordTotal ka + keywordTotal kb : Nat) : ℚ)
  let sh : ℚ := ((16 - hamming16 (simhash a) (simhash b) : Nat) : ℚ) / 16
  (7 * dice + 3 * sh) / 10

/-- Match acceptance threshold. Modelled from the spec: a tunable
configuration constant, fixed here at a representative value. -/
def matchThreshold : ℚ := 3 / 10

/-- Modified-versus-rewritten band boundary. Modelled from the spec: a tunable
configuration constant, fixed here at a representative value. -/
def modifiedThreshold : ℚ := 7 / 10

/-- Minimum clause length below which a candidate segment is merged with the
following one. Modelled from the spec. -/
def minClauseLen : Nat := 40

/-- List indexed from a starting position: each element paired with its
position. -/
def indexedFrom (n : Nat) : List α → List (Nat × α)
  | [] => []
  | a :: as => (n, a) :: indexedFrom (n + 1) as

/-- List with 0-based positions attached. -/
def indexed (l : List α) : List (Nat × α) := indexedFrom 0 l

/-- Merge candidate segments shorter than the minimum clause length into the
following segment. Modelled from the spec's short-candidate merging. -/
def mergeShort : List String → List String
  | [] => []
  | s :: rest =>
    match mergeShort rest with
    | [] => [s]
    | r :: rs => if s.length < minClauseLen then (s ++ " " ++ r) :: rs else s :: r :: rs

/-- Keyword table of the best-effort category classifier. Modelled from the
spec's fixed taxonomy with representative trigger words. -/
def categoryKeywords : List (Category × List String) :=
  [(.liability, ["liability", "liable", "indemnify", "damages"]),
   (.termination, ["terminate", "termination", "cancel"]),
   (.dataProcessing, ["data", "processing", "personal"]),
   (.ip, ["intellectual", "copyright", "trademark"]),
   (.slaMetrics, ["uptime", "availability", "credits"]),
   (.payment, ["payment", "fees", "invoice"]),
   (.confidentiality, ["confidential", "disclosure"])]

/-- Best-effort category of a clause text: the first taxonomy entry one of
whose trigger words occurs as a token, none when no entry matches. Modelled
from the spec: unmatched clauses get a null category, never an error. -/
def categorize (t : String) : Option Category :=
  (categoryKeywords.find? (fun p => p.2.any (fun k => (tokens t).contains k))).map
    Prod.fst

/-- Clause Segmenter. Modelled from the spec: blank-line-delimited paragraph
segmentation with short-candidate merging, 1-based sequential clause numbers,
and best-effort categories. -/
def segmentText (t : String) : List Clause :=
  (indexed (mergeShort (((t.splitOn "\n\n").map normalizeWs).filter
      (fun s => s ≠ "")))).map (fun p =>
    { clauseNumber := p.1 + 1, category := categorize p.2, heading := none,
      text := p.2 })

/-- Change record of the drift detector, over clause indices within the two
compared versions. Modelled from the spec's data model. -/
structure Change where
  fromClause : Option (Nat × Clause)
  toClause : Option (Nat × Clause)
  changeType : ChangeType
  similarity : ℚ
deriving DecidableEq, Repr

/-- From-side clause index of a change record. -/
def fromIndexOf (ch : Change) : Option Nat := ch.fromClause.map Prod.fst

/-- To-side clause index of a change record. -/
def toIndexOf (ch : Change) : Option Nat := ch.toClause.map Prod.fst

/-- Remove the first element satisfying a test: that element (when present)
and the list without it. -/
def extractFirst (p : α → Bool) : List α → Option α × List α
  | [] => (none, [])
  | a :: as =>
    if p a then (some a, as)
    else
      let r := extractFirst p as
      (r.1, a :: r.2)

/-- Exact-duplicate phase of the drift detector: pair each from-clause, in
order, with the first still-unused to-clause of byte-identical text.  Returns
the matched pairs and both leftovers. Modelled from the spec: text-hash
equality short-circuits all downstream similarity math. -/
def exactPhase :
    List (Nat × Clause) → List (Nat × Clause) →
      List ((Nat × Clause) × (Nat × Clause)) × List (Nat × Clause) × List (Nat × Clause)
  | [], ts => ([], [], ts)
  | f :: fs, ts =>
    match extractFirst (fun t => t.2.text == f.2.text) ts with
    | (some t, ts1) =>
      let r := exactPhase fs ts1
      ((f, t) :: r.1, r.2.1, r.2.2)
    | (none, _) =>
      let r := exactPhase fs ts
      (r.1, f :: r.2.1, r.2.2)

/-- Candidate pair of the similarity matching phase. -/
structure Cand where
  f : Nat × Clause
  t : Nat × Clause
  sim : ℚ
deriving DecidableEq, Repr

/-- All candidate pairs at or above the match threshold. Modelled from the
spec: a similarity score for every pair, pairs below the match threshold
never matched. -/
def candidates (fr tr : List (Nat × Clause)) : List Cand :=
  (fr.flatMap (fun f => tr.map (fun t => Cand.mk f t (pairSim f.2.text t.2.text)))).filter
    (fun c => matchThreshold ≤ c.sim)

/-- Clause-number distance of a candidate, the tie-break key. -/
def idxDist (c : Cand) : Nat := max c.f.1 c.t.1 - min c.f.1 c.t.1

/-- Priority order on candidates: strictly greater similarity first, position
distance as the tie-break. Modelled from the spec's descending-similarity
order with locality tie-break. -/
def candBefore (a b : Cand) : Bool :=
  if a.sim = b.sim then decide (idxDist a ≤ idxDist b) else decide (b.sim < a.sim)

/-- Insertion step of the candidate sort. -/
def insertCand (c : Cand) : List Cand → List Cand
  | [] => [c]
  | d :: ds => if candBefore c d then c :: d :: ds else d :: insertCand c ds

/-- Candidates sorted by descending similarity. -/
def sortCands : List Cand → List Cand
  | [] => []
  | c :: cs => insertCand c (sortCands cs)

/-- Greedy matching pass: walk the prioritized candidates, accepting a pair
whenever neither side's index has been used. Modelled from the spec: each
clause used at most once on each side. -/
def greedyAux : List Cand → List Nat → List Nat → List ((Nat × Clause) × (Nat × Clause))
  | [], _, _ => []
  | c :: cs, uf, ut =>
    if c.f.1 ∈ uf ∨ c.t.1 ∈ ut then greedyAux cs uf ut
    else (c.f, c.t) :: greedyAux cs (c.f.1 :: uf) (c.t.1 :: ut)

/-- Classification of an accepted similarity match by band. Modelled from the
spec: at or above the modified threshold modified, otherwise rewritten. -/
def classifyMatch (a b : Clause) : ChangeType :=
  if modifiedThreshold ≤ pairSim a.text b.text then .modified else .rewritten

/-- Exact-duplicate matches of a version pair. -/
def exactMatches (fromCs toCs : List Clause) :
    List ((Nat × Clause) × (Nat × Clause)) :=
  (exactPhase (indexed fromCs) (indexed toCs)).1

/-- From-side clauses left over after the exact-duplicate phase. -/
def exactLeftoverFrom (fromCs toCs : List Clause) : List (Nat × Clause) :=
  (exactPhase (indexed fromCs) (indexed toCs)).2.1

/-- To-side clauses left over after the exact-duplicate phase. -/
def exactLeftoverTo (fromCs toCs : List Clause) : List (Nat × Clause) :=
  (exactPhase (indexed fromCs) (indexed toCs)).2.2

/-- Similarity matches of a version pair, greedily accepted in priority
order. -/
def simMatches (fromCs toCs : List Clause) :
    List ((Nat × Clause) × (Nat × Clause)) :=
  greedyAux (sortCands (candidates (exactLeftoverFrom fromCs toCs)
    (exactLeftoverTo fromCs toCs))) [] []

/-- From-side clauses matched in neither phase: resolved as removed. -/
def removedRecs (fromCs toCs : List Clause) : List (Nat × Clause) :=
  (exactLeftoverFrom fromCs toCs).filter
    (fun f => !((simMatches fromCs toCs).any (fun m => m.1.1 == f.1)))

/-- To-side clauses matched in neither phase: resolved as added. -/
def addedRecs (fromCs toCs : List Clause) : List (Nat × Clause) :=
  (exactLeftoverTo fromCs toCs).filter
    (fun t => !((simMatches fromCs toCs).any (fun m => m.2.1 == t.1)))

/-- Change record of an exact-duplicate match. -/
def mkUnchanged (m : (Nat × Clause) × (Nat × Clause)) : Change :=
  { fromClause := some m.1, toClause := some m.2, changeType := .unchanged,
    similarity := 1 }

/-- Change record of a similarity match. -/
def mkMatched (m : (Nat × Clause) × (Nat × Clause)) : Change :=
  { fromClause := some m.1, toClause := some m.2,
    changeType := classifyMatch m.1.2 m.2.2,
    similarity := pairSim m.1.2.text m.2.2.text }

/-- Change record of an unmatched from-clause. -/
def mkRemoved (f : Nat × Clause) : Change :=
  { fromClause := some f, toClause := none, changeType := .removed,
    similarity := 0 }

/-- Change record of an unmatched to-clause. -/
def mkAdded (t : Nat × Clause) : Change :=
  { fromClause := none, toClause := some t, changeType := .added,
    similarity := 0 }

/-- Drift Detector. Modelled from the spec: exact-duplicate short-circuit,
then greedy best-match alignment of the remainder, then removed and added
records for the unmatched clauses of each side. -/
def detectChanges (fromCs toCs : List Clause) : List Change :=
  (exactMatches fromCs toCs).map mkUnchanged
    ++ (simMatches fromCs toCs).map mkMatched
    ++ (removedRecs fromCs toCs).map mkRemoved
    ++ (addedRecs fromCs toCs).map mkAdded

/-- Risk band of a score. Modelled from the spec: fixed score-band boundaries,
below 40 low, 40 to 69 medium, 70 to 89 high, 90 and above critical. -/
def riskLevel (s : Nat) : RiskLevel :=
  if s < 40 then .low
  else if s < 70 then .medium
  else if s < 90 then .high
  else .critical

/-- Per-category base weight of the risk score. Modelled from the spec:
liability, termination, IP and data-processing clauses weighted higher. -/
def categoryWeight : Option Category → ℚ
  | some .liability => 10
  | some .termination => 10
  | some .dataProcessing => 9
  | some .ip => 9
  | some .slaMetrics => 7
  | some .payment => 6
  | some .confidentiality => 7
  | some .other => 4
  | none => 4

/-- Change-type multiplier of the risk score. Modelled from the spec: removed
and rewritten weighted above modified and added. -/
def changeTypeMult : ChangeType → ℚ
  | .removed => 10
  | .rewritten => 9
  | .modified => 7
  | .added => 6
  | .unchanged => 0

/-- Raw (unclamped, rational) risk value: base weight times change-type
multiplier times a magnitude term derived from one minus the similarity.
Modelled from the spec's scoring combination. -/
def rawRisk (cat : Option Category) (ct : ChangeType) (sim : ℚ) : ℚ :=
  categoryWeight cat * changeTypeMult ct * (4 + 6 * (1 - sim)) / 10

/-- Integer risk score 0 to 100: the raw value rounded down and clamped. -/
def riskScore (cat : Option Category) (ct : ChangeType) (sim : ℚ) : Nat :=
  min 100 (⌊rawRisk cat ct sim⌋.toNat)

/-- Category a change is scored under: the to-side clause's category when
present, otherwise the from-side clause's. -/
def categoryOf (c : Change) : Option Category :=
  match c.toClause with
  | some t => t.2.category
  | none =>
    match c.fromClause with
    | some f => f.2.category
    | none => none

/-- Risk score of a change record. -/
def classifyRisk (c : Change) : Nat :=
  riskScore (categoryOf c) c.changeType c.similarity

/-- Risk band of a change record. -/
def classifyLevel (c : Change) : RiskLevel := riskLevel (classifyRisk c)

/-- Change record together with the risk pipeline's outputs; a none score
means no risk scoring was performed. -/
structure ScoredChange where
  change : Change
  riskScoreOut : Option Nat
  riskLevelOut : Option RiskLevel
  explanation : Option String
deriving DecidableEq, Repr

/-- Risk Classifier applied to one change: unchanged records are excluded from
the risk pipeline; otherwise score, band, and a best-effort explanation from
the external collaborator, whose failure (a none) never blocks scoring.
Modelled from the spec. -/
def scoreChange (explain : Change → Option String) (c : Change) : ScoredChange :=
  if c.changeType = .unchanged then
    { change := c, riskScoreOut := none, riskLevelOut := none, explanation := none }
  else
    { change := c, riskScoreOut := some (classifyRisk c),
      riskLevelOut := some (riskLevel (classifyRisk c)),
      explanation := explain c }

/-- Comparison of two clause sequences: the drift detector's change set,
risk-scored unless the from version is empty (a first ingested version is a
baseline, not a finding). Modelled from the spec. -/
def runComparison (explain : Change → Option String)
    (fromCs toCs : List Clause) : List ScoredChange :=
  if fromCs.isEmpty then
    (detectChanges fromCs toCs).map (fun c =>
      { change := c, riskScoreOut := none, riskLevelOut := none, explanation := none })
  else
    (detectChanges fromCs toCs).map (scoreChange explain)

/-- Declared source kind of a document. -/
inductive SourceKind
  | pdf
  | url
  | text
deriving DecidableEq, Repr

/-- Raw document payload; a none content is an unreadable source. -/
structure Document where
  kind : SourceKind
  content : Option String
deriving DecidableEq, Repr

/-- Extraction failure taxonomy. Modelled from the spec: empty, unreadable, or
oversized documents are rejected rather than truncated. -/
inductive ExtractionError
  | emptySource
  | unreadable
  | tooLarge
deriving DecidableEq, Repr

/-- Configured document size ceiling. Modelled from the spec. -/
def maxDocChars : Nat := 500000

/-- Control-character stripping of the Text Normalizer: newlines survive (they
delimit clause candidates), other control characters are dropped. -/
def stripControl (s : String) : String :=
  String.mk (s.data.filter (fun c => c == '\n' || decide (32 ≤ c.toNat)))

/-- Text Normalizer. Modelled from the spec: fails with an extraction error
when the source is empty, unreadable, or over the size ceiling, and otherwise
yields control-stripped plain text. -/
def normalizeDoc (d : Document) : Except ExtractionError String :=
  match d.content with
  | none => .error .unreadable
  | some raw =>
    if raw = "" then .error .emptySource
    else if maxDocChars < raw.length then .error .tooLarge
    else .ok (stripControl raw)

/-- Document conditions the Text Normalizer rejects. -/
def badDoc (d : Document) : Prop :=
  d.content = none ∨ d.content = some "" ∨
    ∃ raw, d.content = some raw ∧ maxDocChars < raw.length

/-- Whole pipeline for one version pair: normalize both documents, segment,
and compare. Modelled from the spec's left-to-right stage composition. -/
def pipeline (explain : Change → Option String) (fromDoc toDoc : Document) :
    Except ExtractionError (List ScoredChange) := do
  let ft ← normalizeDoc fromDoc
  let tt ← normalizeDoc toDoc
  pure (runComparison explain (segmentText ft) (segmentText tt))

/-- Declared values of the change type field in the frontend API Change
interface (src/unnamed/part_003, the union of the change type literals). -/
def changeTypeValues : List String := ["added", "removed", "modified", "rewritten"]

/-- Error body shape the API client parses a failed response into
(src/unnamed/part_003, the ApiError interface). -/
structure ApiErrorBody where
  detail : String
  status : Option Nat
deriving DecidableEq, Repr

/-- HTTP response as the apiFetch wrapper observes it: the ok flag, status
code and text, the body parsed as an error object when parseable (none models
a body that is not parseable JSON), and the parsed JSON payload of the
success path. -/
structure SimResponse (α : Type) where
  ok : Bool
  status : Nat
  statusText : String
  errorJson : Option ApiErrorBody
  jsonBody : α
deriving DecidableEq, Repr

/-- Outcome of an apiFetch call: a thrown Error with its message, or a
returned value, where a none value models the undefined returned on 204. -/
inductive FetchResult (α : Type)
  | thrown (msg : String)
  | value (v : Option α)
deriving DecidableEq, Repr

/-- The apiFetch wrapper of src/unnamed/part_003: on a non-ok response, parse
the body as an error object, falling back to the status text when the body is
not parseable, and throw an Error whose message is the detail field when that
is nonempty and the fixed request-failed message otherwise; on 204 return
undefined; otherwise return the parsed body. -/
def apiFetch {α : Type} (r : SimResponse α) : FetchResult α :=
  if r.ok = false then
    let e : ApiErrorBody :=
      match r.errorJson with
      | some e => e
      | none => { detail := r.statusText, status := some r.status }
    .thrown (if e.detail = "" then "API request failed" else e.detail)
  else if r.status = 204 then .value none
  else .value (some r.jsonBody)

/-- Declared values of the alert status field in the frontend API Alert
interface (src/unnamed/part_003). -/
def declaredAlertStatuses : List String :=
  ["pending", "sent", "acknowledged", "resolved"]

/-- Status argument the alerts page's Mark as Failed button passes to
handleStatusUpdate (src/frontend/src/app/alerts/page.tsx). -/
def markAsFailedStatus : String := "failed"

/-- Statuses the alerts page's stats memo counts alerts into
(src/frontend/src/app/alerts/page.tsx). -/
def statsCountedStatuses : List String := ["pending", "sent", "failed"]

/-- The alerts page's stats computation over the fetched alerts' status
strings: total, pending, sent and failed counts
(src/frontend/src/app/alerts/page.tsx). -/
def alertStats (statuses : List String) : Nat × Nat × Nat × Nat :=
  (statuses.length,
   statuses.countP (fun s => s == "pending"),
   statuses.countP (fun s => s == "sent"),
   statuses.countP (fun s => s == "failed"))

/-- Display-name to API-code table of the add-contract modal
(src/unnamed/part_007, contractTypeMap). -/
def contractTypeMap : List (String × String) :=
  [("Terms of Service", "tos"),
   ("Privacy Policy", "privacy"),
   ("Service Agreement", "sla"),
   ("Data Processing Agreement", "dpa"),
   ("SLA", "sla"),
   ("Master Service Agreement", "msa")]

/-- Declared values of the contract type field in the frontend API Contract
interface (src/unnamed/part_003). -/
def declaredContractTypes : List String :=
  ["tos", "privacy", "sla", "msa", "dpa", "other"]

/-- Contract type code the modal submits: the table entry for the selected
display name, with the falsy-fallback to other of src/unnamed/part_007
(the lookup result or-else the other literal). -/
def apiContractType (display : String) : String :=
  match contractTypeMap.lookup display with
  | some code => if code = "" then "other" else code
  | none => "other"

/-- Concrete clause used by the witness statements. -/
def clauseW : Clause :=
  { clauseNumber := 1, category := none, heading := none, text := "alpha" }

/-- Concrete clause with a liability category used by the witness
statements. -/
def clauseL : Clause :=
  { clauseNumber := 2, category := some .liability, heading := none,
    text := "liability cap" }

/-- Concrete change record used by the witness statements. -/
def changeW : Change :=
  { fromClause := some (0, clauseL), toClause := none, changeType := .removed,
    similarity := 0 }

/-- Concrete change record at a higher similarity used by the witness
statements. -/
def changeW2 : Change :=
  { fromClause := some (0, clauseL), toClause := none, changeType := .removed,
    similarity := 1 / 2 }

/-- Concrete non-ok response whose parsed error body has an empty detail
field, used to exercise the fallback message of apiFetch. -/
def respEmptyDetail : SimResponse Nat :=
  { ok := false, status := 400, statusText := "Bad Request",
    errorJson := some { detail := "", status := some 400 }, jsonBody := 0 }

theorem lookup_mem_snd {α β : Type} [BEq α] {l : List (α × β)} {a : α} {b : β}
    (h : List.lookup a l = some b) : b ∈ l.map Prod.snd := by
  induction l with
  | nil => simp [List.lookup] at h
  | cons p ps ih =>
    obtain ⟨k, v⟩ := p
    rw [List.lookup] at h
    by_cases hk : (a == k) = true
    · rw [hk] at h
      simp only [Option.some.injEq] at h
      simp [h]
    · rw [Bool.not_eq_true] at hk
      rw [hk] at h
      simpa using Or.inr (ih h)

/-- C9: the Mark as Failed button writes the status value failed, which is
outside the declared alert status set, and the page's stats count alerts into
pending, sent and failed buckets, so a declared acknowledged alert lands in
no bucket. -/
theorem alerts_status_outside_declared :
    markAsFailedStatus ∉ declaredAlertStatuses ∧
    markAsFailedStatus ∈ statsCountedStatuses ∧
    "acknowledged" ∈ declaredAlertStatuses ∧
    "acknowledged" ∉ statsCountedStatuses ∧
    alertStats ["acknowledged"] = (1, 0, 0, 0) := by decide

/-- C10: every display name the add-contract modal can submit maps into the
six declared contract type codes, names outside the table fall back to the
other code, and the two distinct display names Service Agreement and SLA both
map to the code sla. -/
theorem contract_type_mapping (s : String) :
    apiContractType s ∈ declaredContractTypes ∧
    (List.lookup s contractTypeMap = none → apiContractType s = "other") ∧
    apiContractType "Service Agreement" = "sla" ∧
    apiContractType "SLA" = "sla" ∧ ("Service Agreement" : String) ≠ "SLA" := by
  refine ⟨?_, ?_, by decide, by decide, by decide⟩
  · unfold apiContractType
    cases h : List.lookup s contractTypeMap with
    | none => decide
    | some code =>
      have hm := lookup_mem_snd h
      fin_cases hm <;> decide
  · intro h
    unfold apiContractType
    rw [h]

/-- C6: segmenting and fingerprinting are deterministic: two runs on equal
input texts produce identical clause sequences and identical fingerprints. -/
theorem segmenter_fingerprint_deterministic (t₁ t₂ s₁ s₂ : String)
    (ht : t₁ = t₂) (hs : s₁ = s₂) :
    segmentText t₁ = segmentText t₂ ∧ fingerprint s₁ = fingerprint s₂ := by
  subst ht; subst hs; exact ⟨rfl, rfl⟩

theorem segmenter_fingerprint_deterministic_witness :
    segmentText "Liability. The cap applies to all damages claims hereunder." =
      segmentText "Liability. The cap applies to all damages claims hereunder." ∧
    fingerprint "termination notice" = fingerprint "termination notice" :=
  segmenter_fingerprint_deterministic _ _ _ _ rfl rfl

/-- C8 counterexample: a non-ok response whose parsed body has an empty detail
field is thrown with the fixed request-failed message, not with the body's
detail field and not with the status text. -/
theorem apiFetch_empty_detail_cex :
    apiFetch respEmptyDetail = .thrown "API request failed" ∧
    respEmptyDetail.ok = false ∧
    respEmptyDetail.errorJson = some { detail := "", status := some 400 } ∧
    ("API request failed" : String) ≠ "" ∧
    ("API request failed" : String) ≠ respEmptyDetail.statusText := by decide

/-- C8 amended: a non-ok response always throws and never resolves, with the
parsed detail when nonempty, the status text when the body is unparseable and
the status text nonempty, and the fixed request-failed message when the
resulting detail is empty; a 204 resolves to undefined; any other ok response
resolves to the parsed body. -/
theorem apiFetch_contract {α : Type} (r : SimResponse α) :
    (r.ok = false →
      (∀ e, r.errorJson = some e → e.detail ≠ "" → apiFetch r = .thrown e.detail) ∧
      (∀ e, r.errorJson = some e → e.detail = "" →
        apiFetch r = .thrown "API request failed") ∧
      (r.errorJson = none → r.statusText ≠ "" → apiFetch r = .thrown r.statusText) ∧
      (r.errorJson = none → r.statusText = "" →
        apiFetch r = .thrown "API request failed") ∧
      ∀ v, apiFetch r ≠ FetchResult.value v) ∧
    (r.ok = true → r.status = 204 → apiFetch r = .value none) ∧
    (r.ok = true → r.status ≠ 204 → apiFetch r = .value (some r.jsonBody)) := by
  refine ⟨fun hok => ?_, fun hok h204 => ?_, fun hok h204 => ?_⟩
  · refine ⟨fun e he hd => ?_, fun e he hd => ?_, fun hn hs => ?_, fun hn hs => ?_,
      fun v => ?_⟩ <;>
      simp_all [apiFetch]
  · simp [apiFetch, hok, h204]
  · simp [apiFetch, hok, h204]

/-- C2: for a change that is not unchanged, the risk classifier's score lies
in 0 to 100 and the risk level is exactly the fixed band of the score: below
40 low, 40 to 69 medium, 70 to 89 high, 90 and above critical. -/
theorem risk_classifier_bands (c : Change) (_h : c.changeType ≠ ChangeType.unchanged) :
    classifyRisk c ≤ 100 ∧
    (classifyLevel c = .low ↔ classifyRisk c < 40) ∧
    (classifyLevel c = .medium ↔ 40 ≤ classifyRisk c ∧ classifyRisk c < 70) ∧
    (classifyLevel c = .high ↔ 70 ≤ classifyRisk c ∧ classifyRisk c < 90) ∧
    (classifyLevel c = .critical ↔ 90 ≤ classifyRisk c) := by
  refine ⟨Nat.min_le_left _ _, ?_, ?_, ?_, ?_⟩ <;>
    (unfold classifyLevel riskLevel; split_ifs <;> simp_all <;> omega)

theorem risk_classifier_bands_witness :
    classifyRisk changeW ≤ 100 ∧
    (classifyLevel changeW = .low ↔ classifyRisk changeW < 40) ∧
    (classifyLevel changeW = .medium ↔ 40 ≤ classifyRisk changeW ∧ classifyRisk changeW < 70) ∧
    (classifyLevel changeW = .high ↔ 70 ≤ classifyRisk changeW ∧ classifyRisk changeW < 90) ∧
    (classifyLevel changeW = .critical ↔ 90 ≤ classifyRisk changeW) :=
  risk_classifier_bands changeW (by decide)

/-- C4: for fixed category and change type, the risk score is antitone in the
similarity score: lowering similarity never lowers the score. -/
theorem risk_score_antitone (c₁ c₂ : Change) (hcat : categoryOf c₁ = categoryOf c₂)
    (hct : c₁.changeType = c₂.changeType) (hsim : c₁.similarity ≤ c₂.similarity) :
    classifyRisk c₂ ≤ classifyRisk c₁ := by
  unfold classifyRisk riskScore
  rw [← hcat, ← hct]
  refine min_le_min (le_refl 100) (Int.toNat_le_toNat (Int.floor_le_floor ?_))
  have hw : 0 ≤ categoryWeight (categoryOf c₁) := by
    rcases categoryOf c₁ with _ | cat
    · norm_num [categoryWeight]
    · cases cat <;> norm_num [categoryWeight]
  have hm : 0 ≤ changeTypeMult c₁.changeType := by
    cases hc : c₁.changeType <;> norm_num [changeTypeMult]
  have hK : 0 ≤ categoryWeight (categoryOf c₁) * changeTypeMult c₁.changeType :=
    mul_nonneg hw hm
  have h1 : 4 + 6 * (1 - c₂.similarity) ≤ 4 + 6 * (1 - c₁.similarity) := by linarith
  have h2 := mul_le_mul_of_nonneg_left h1 hK
  unfold rawRisk
  rw [mul_assoc, mul_assoc]
  linarith [h2]

theorem risk_score_antitone_witness :
    classifyRisk changeW2 ≤ classifyRisk changeW :=
  risk_score_antitone changeW changeW2 (by decide) (by decide) (by norm_num [changeW, changeW2])

theorem detectChanges_nil_from (toCs : List Clause) :
    detectChanges [] toCs = (indexed toCs).map mkAdded := by
  have h1 : exactPhase (indexed ([] : List Clause)) (indexed toCs) =
      ([], [], indexed toCs) := by
    simp [indexed, indexedFrom, exactPhase]
  have h2 : exactLeftoverFrom [] toCs = [] := by
    simp [exactLeftoverFrom, h1]
  have h3 : exactLeftoverTo [] toCs = indexed toCs := by
    simp [exactLeftoverTo, h1]
  have h4 : simMatches [] toCs = [] := by
    simp [simMatches, h2, h3, candidates, sortCands, greedyAux]
  have h5 : exactMatches [] toCs = [] := by
    simp [exactMatches, h1]
  simp [detectChanges, h2, h3, h4, h5, removedRecs, addedRecs]

/-- C5: comparing an empty from sequence against any to sequence yields only
added changes, with no risk score and no risk level assigned to any of
them. -/
theorem first_version_baseline (explain : Change → Option String) (toCs : List Clause) :
    (runComparison explain [] toCs).all
      (fun sc => decide (sc.change.changeType = ChangeType.added ∧
        sc.riskScoreOut = none ∧ sc.riskLevelOut = none)) = true := by
  rw [runComparison]
  simp only [List.isEmpty_nil, if_true, detectChanges_nil_from]
  rw [List.all_eq_true]
  intro sc hsc
  simp only [List.mem_map] at hsc
  obtain ⟨c, ⟨p, hp, rfl⟩, rfl⟩ := hsc
  simp [mkAdded]

/-- C7: the pipeline for a version pair fails exactly when one of the two
documents is unreadable, empty, or over the size ceiling; on every other
input it returns a change list, so the extraction error is the only failure
propagated to the caller. -/
theorem pipeline_extraction_error_only (explain : Change → Option String)
    (d₁ d₂ : Document) :
    (∃ e, pipeline explain d₁ d₂ = .error e) ↔ (badDoc d₁ ∨ badDoc d₂) := by
  unfold pipeline normalizeDoc badDoc
  rcases d₁ with ⟨k₁, c₁⟩
  rcases d₂ with ⟨k₂, c₂⟩
  rcases c₁ with _ | r₁ <;> rcases c₂ with _ | r₂ <;>
    simp [Bind.bind, Except.bind, pure, Except.pure] <;> split_ifs <;>
    simp_all

theorem countP_ext {α : Type} {l : List α} {p q : α → Bool} (h : ∀ a ∈ l, p a = q a) :
    l.countP p = l.countP q := by
  induction l with
  | nil => rfl
  | cons a l ih =>
    rw [List.countP_cons, List.countP_cons, h a (List.mem_cons_self a l),
      ih (fun x hx => h x (List.mem_cons_of_mem a hx))]

theorem countP_indexedFrom {α : Type} (n i : Nat) (l : List α) :
    (indexedFrom n l).countP (fun p => decide (p.1 = i)) =
      if n ≤ i ∧ i < n + l.length then 1 else 0 := by
  induction l generalizing n with
  | nil =>
    rw [indexedFrom]
    simp only [List.countP_nil, List.length_nil, Nat.add_zero]
    rw [if_neg (by omega)]
  | cons a as ih =>
    rw [indexedFrom, List.countP_cons, ih (n + 1)]
    simp only [decide_eq_true_eq, List.length_cons]
    split_ifs <;> omega

theorem countP_key_one {α : Type} {l : List α} (f : α → Nat) (i : Nat)
    (hn : (l.map f).Nodup) (hi : i ∈ l.map f) :
    l.countP (fun x => decide (f x = i)) = 1 := by
  induction l with
  | nil => simp at hi
  | cons a l ih =>
    rw [List.map_cons, List.nodup_cons] at hn
    obtain ⟨ha, hn2⟩ := hn
    rw [List.countP_cons]
    rw [List.map_cons] at hi
    rcases List.mem_cons.mp hi with h | h
    · have hz : l.countP (fun x => decide (f x = i)) = 0 := by
        rw [List.countP_eq_zero]
        intro x hx
        simp only [decide_eq_true_eq]
        intro hfx
        refine ha ?_
        rw [← h, ← hfx]
        exact List.mem_map_of_mem f hx
      rw [hz]
      simp [h]
    · have hfa : ¬(f a = i) := fun he => ha (he ▸ h)
      rw [ih hn2 h]
      simp [hfa]

theorem extractFirst_perm {α : Type} {p : α → Bool} {l l2 : List α} {a : α}
    (h : extractFirst p l = (some a, l2)) : l.Perm (a :: l2) := by
  induction l generalizing l2 with
  | nil => simp [extractFirst] at h
  | cons b bs ih =>
    rw [extractFirst] at h
    by_cases hb : p b
    · rw [if_pos hb] at h
      simp only [Prod.mk.injEq, Option.some.injEq] at h
      obtain ⟨rfl, rfl⟩ := h
      exact List.Perm.refl _
    · rw [if_neg hb] at h
      rcases hE : extractFirst p bs with ⟨o, rest⟩
      rw [hE] at h
      simp only [Prod.mk.injEq] at h
      obtain ⟨h1, h2⟩ := h
      subst h2
      have hbs : bs.Perm (a :: rest) := ih (by rw [hE, h1])
      exact (hbs.cons b).trans (List.Perm.swap a b rest)

theorem extractFirst_found {α : Type} {p : α → Bool} {l l2 : List α} {a : α}
    (h : extractFirst p l = (some a, l2)) : p a = true := by
  induction l generalizing l2 with
  | nil => simp [extractFirst] at h
  | cons b bs ih =>
    rw [extractFirst] at h
    by_cases hb : p b
    · rw [if_pos hb] at h
      simp only [Prod.mk.injEq, Option.some.injEq] at h
      exact h.1 ▸ hb
    · rw [if_neg hb] at h
      rcases hE : extractFirst p bs with ⟨o, rest⟩
      rw [hE] at h
      simp only [Prod.mk.injEq] at h
      exact ih (by rw [hE, h.1])

theorem extractFirst_none {α : Type} {p : α → Bool} {l l2 : List α}
    (h : extractFirst p l = (none, l2)) : ∀ x ∈ l, p x = false := by
  induction l generalizing l2 with
  | nil => intro x hx; simp at hx
  | cons b bs ih =>
    rw [extractFirst] at h
    by_cases hb : p b
    · rw [if_pos hb] at h
      simp at h
    · rw [if_neg hb] at h
      rcases hE : extractFirst p bs with ⟨o, rest⟩
      rw [hE] at h
      simp only [Prod.mk.injEq] at h
      intro x hx
      rcases List.mem_cons.mp hx with rfl | hx2
      · exact Bool.not_eq_true _ ▸ (by simpa using hb)
      · exact ih (by rw [hE, h.1]) x hx2

theorem exactPhase_perm_from (fs ts : List (Nat × Clause)) :
    ((exactPhase fs ts).1.map Prod.fst ++ (exactPhase fs ts).2.1).Perm fs := by
  induction fs generalizing ts with
  | nil => simp [exactPhase]
  | cons f fs ih =>
    rcases hE : extractFirst (fun t => t.2.text == f.2.text) ts with ⟨o, ts1⟩
    rcases o with _ | t
    · simp only [exactPhase, hE]
      exact List.perm_middle.trans ((ih ts).cons f)
    · simp only [exactPhase, hE, List.map_cons, List.cons_append]
      exact (ih ts1).cons f

theorem exactPhase_perm_to (fs ts : List (Nat × Clause)) :
    ((exactPhase fs ts).1.map Prod.snd ++ (exactPhase fs ts).2.2).Perm ts := by
  induction fs generalizing ts with
  | nil => simp [exactPhase]
  | cons f fs ih =>
    rcases hE : extractFirst (fun t => t.2.text == f.2.text) ts with ⟨o, ts1⟩
    rcases o with _ | t
    · simp only [exactPhase, hE]
      exact ih ts
    · simp only [exactPhase, hE, List.map_cons, List.cons_append]
      exact ((ih ts1).cons t).trans (extractFirst_perm hE).symm

theorem mem_insertCand {c x : Cand} {l : List Cand} (h : x ∈ insertCand c l) :
    x = c ∨ x ∈ l := by
  induction l with
  | nil =>
    simp [insertCand] at h
    exact Or.inl h
  | cons d ds ih =>
    rw [insertCand] at h
    by_cases hc : candBefore c d
    · rw [if_pos hc] at h
      rcases List.mem_cons.mp h with rfl | h2
      · exact Or.inl rfl
      · exact Or.inr h2
    · rw [if_neg hc] at h
      rcases List.mem_cons.mp h with rfl | h2
      · exact Or.inr (List.mem_cons_self _ _)
      · rcases ih h2 with rfl | h3
        · exact Or.inl rfl
        · exact Or.inr (List.mem_cons_of_mem _ h3)

theorem mem_sortCands {x : Cand} {l : List Cand} (h : x ∈ sortCands l) : x ∈ l := by
  induction l with
  | nil =>
    simp [sortCands] at h
  | cons c cs ih =>
    rw [sortCands] at h
    rcases mem_insertCand h with rfl | h2
    · exact List.mem_cons_self _ _
    · exact List.mem_cons_of_mem _ (ih h2)

theorem candidates_mem {fr tr : List (Nat × Clause)} {c : Cand}
    (h : c ∈ candidates fr tr) : c.f ∈ fr ∧ c.t ∈ tr := by
  unfold candidates at h
  rw [List.mem_filter] at h
  obtain ⟨h1, _⟩ := h
  rw [List.mem_flatMap] at h1
  obtain ⟨f, hf, hmap⟩ := h1
  rw [List.mem_map] at hmap
  obtain ⟨t, ht, rfl⟩ := hmap
  exact ⟨hf, ht⟩

theorem greedyAux_mem {cs : List Cand} {uf ut : List Nat}
    {m : (Nat × Clause) × (Nat × Clause)} (h : m ∈ greedyAux cs uf ut) :
    ∃ c ∈ cs, m = (c.f, c.t) := by
  induction cs generalizing uf ut with
  | nil => simp [greedyAux] at h
  | cons c cs ih =>
    rw [greedyAux] at h
    by_cases hc : c.f.1 ∈ uf ∨ c.t.1 ∈ ut
    · rw [if_pos hc] at h
      obtain ⟨d, hd, he⟩ := ih h
      exact ⟨d, List.mem_cons_of_mem _ hd, he⟩
    · rw [if_neg hc] at h
      rcases List.mem_cons.mp h with rfl | h2
      · exact ⟨c, List.mem_cons_self _ _, rfl⟩
      · obtain ⟨d, hd, he⟩ := ih h2
        exact ⟨d, List.mem_cons_of_mem _ hd, he⟩

theorem greedyAux_fst (cs : List Cand) (uf ut : List Nat) :
    ((greedyAux cs uf ut).map (fun m => m.1.1)).Nodup ∧
      ∀ x ∈ (greedyAux cs uf ut).map (fun m => m.1.1), x ∉ uf := by
  induction cs generalizing uf ut with
  | nil => simp [greedyAux]
  | cons c cs ih =>
    rw [greedyAux]
    by_cases hc : c.f.1 ∈ uf ∨ c.t.1 ∈ ut
    · rw [if_pos hc]
      exact ih uf ut
    · rw [if_neg hc]
      push_neg at hc
      obtain ⟨h1, h2⟩ := ih (c.f.1 :: uf) (c.t.1 :: ut)
      rw [List.map_cons]
      constructor
      · rw [List.nodup_cons]
        exact ⟨fun hmem => (h2 _ hmem) (List.mem_cons_self _ _), h1⟩
      · intro x hx
        rcases List.mem_cons.mp hx with rfl | hx2
        · exact hc.1
        · exact fun hxuf => (h2 x hx2) (List.mem_cons_of_mem _ hxuf)

theorem greedyAux_snd (cs : List Cand) (uf ut : List Nat) :
    ((greedyAux cs uf ut).map (fun m => m.2.1)).Nodup ∧
      ∀ x ∈ (greedyAux cs uf ut).map (fun m => m.2.1), x ∉ ut := by
  induction cs generalizing uf ut with
  | nil => simp [greedyAux]
  | cons c cs ih =>
    rw [greedyAux]
    by_cases hc : c.f.1 ∈ uf ∨ c.t.1 ∈ ut
    · rw [if_pos hc]
      exact ih uf ut
    · rw [if_neg hc]
      push_neg at hc
      obtain ⟨h1, h2⟩ := ih (c.f.1 :: uf) (c.t.1 :: ut)
      rw [List.map_cons]
      constructor
      · rw [List.nodup_cons]
        exact ⟨fun hmem => (h2 _ hmem) (List.mem_cons_self _ _), h1⟩
      · intro x hx
        rcases List.mem_cons.mp hx with rfl | hx2
        · exact hc.2
        · exact fun hxut => (h2 x hx2) (List.mem_cons_of_mem _ hxut)

theorem simMatches_mem {fromCs toCs : List Clause}
    {m : (Nat × Clause) × (Nat × Clause)} (hm : m ∈ simMatches fromCs toCs) :
    m.1 ∈ exactLeftoverFrom fromCs toCs ∧ m.2 ∈ exactLeftoverTo fromCs toCs := by
  obtain ⟨c, hc, rfl⟩ := greedyAux_mem hm
  exact candidates_mem (mem_sortCands hc)

theorem detect_from_count (fromCs toCs : List Clause) (i : Nat)
    (hi : i < fromCs.length) :
    (detectChanges fromCs toCs).countP
      (fun ch => decide (fromIndexOf ch = some i)) = 1 := by
  have hidx : (indexed fromCs).countP (fun p => decide (p.1 = i)) = 1 := by
    rw [indexed, countP_indexedFrom]
    rw [if_pos ⟨Nat.zero_le i, by omega⟩]
  have hsplit : (exactMatches fromCs toCs).countP
      (fun m : (Nat × Clause) × (Nat × Clause) => decide (m.1.1 = i)) +
      (exactLeftoverFrom fromCs toCs).countP (fun p => decide (p.1 = i)) = 1 := by
    unfold exactMatches exactLeftoverFrom
    have h0 := (exactPhase_perm_from (indexed fromCs) (indexed toCs)).countP_eq
      (fun p => decide (p.1 = i))
    rw [List.countP_append, List.countP_map] at h0
    exact h0.trans hidx
  have e1 : ∀ m : (Nat × Clause) × (Nat × Clause),
      ((fun ch => decide (fromIndexOf ch = some i)) ∘ mkUnchanged) m =
        (fun m : (Nat × Clause) × (Nat × Clause) => decide (m.1.1 = i)) m := by
    intro m
    simp [mkUnchanged, fromIndexOf]
  have e2 : ∀ m : (Nat × Clause) × (Nat × Clause),
      ((fun ch => decide (fromIndexOf ch = some i)) ∘ mkMatched) m =
        (fun m : (Nat × Clause) × (Nat × Clause) => decide (m.1.1 = i)) m := by
    intro m
    simp [mkMatched, fromIndexOf]
  have e3 : ∀ f : Nat × Clause,
      ((fun ch => decide (fromIndexOf ch = some i)) ∘ mkRemoved) f =
        (fun f : Nat × Clause => decide (f.1 = i)) f := by
    intro f
    simp [mkRemoved, fromIndexOf]
  have e4 : ∀ t : Nat × Clause,
      ((fun ch => decide (fromIndexOf ch = some i)) ∘ mkAdded) t =
        (fun _ : Nat × Clause => false) t := by
    intro t
    simp [mkAdded, fromIndexOf]
  have h4 : (addedRecs fromCs toCs).countP (fun _ : Nat × Clause => false) = 0 := by
    rw [List.countP_eq_zero]
    intro a _
    simp
  rw [detectChanges, List.countP_append, List.countP_append, List.countP_append,
    List.countP_map, List.countP_map, List.countP_map, List.countP_map,
    countP_ext (fun m _ => e1 m), countP_ext (fun m _ => e2 m),
    countP_ext (fun f _ => e3 f), countP_ext (fun t _ => e4 t), h4]
  have hnodup : ((simMatches fromCs toCs).map
      (fun m : (Nat × Clause) × (Nat × Clause) => m.1.1)).Nodup := by
    unfold simMatches
    exact (greedyAux_fst _ [] []).1
  by_cases hFR : (exactLeftoverFrom fromCs toCs).countP
      (fun p => decide (p.1 = i)) = 0
  · have hnone : ∀ p ∈ exactLeftoverFrom fromCs toCs, ¬(p.1 = i) := by
      intro p hp
      have := List.countP_eq_zero.mp hFR p hp
      simpa using this
    have hM : (simMatches fromCs toCs).countP
        (fun m : (Nat × Clause) × (Nat × Clause) => decide (m.1.1 = i)) = 0 := by
      rw [List.countP_eq_zero]
      intro m hm
      simp only [decide_eq_true_eq]
      exact hnone m.1 (simMatches_mem hm).1
    have hR : (removedRecs fromCs toCs).countP
        (fun f : Nat × Clause => decide (f.1 = i)) = 0 := by
      rw [List.countP_eq_zero]
      intro f hf
      simp only [removedRecs, List.mem_filter] at hf
      simp only [decide_eq_true_eq]
      exact hnone f hf.1
    omega
  · have hFR1 : (exactLeftoverFrom fromCs toCs).countP
        (fun p => decide (p.1 = i)) = 1 := by omega
    have hE0 : (exactMatches fromCs toCs).countP
        (fun m : (Nat × Clause) × (Nat × Clause) => decide (m.1.1 = i)) = 0 := by
      omega
    by_cases hmem : i ∈ (simMatches fromCs toCs).map
        (fun m : (Nat × Clause) × (Nat × Clause) => m.1.1)
    · have hM : (simMatches fromCs toCs).countP
          (fun m : (Nat × Clause) × (Nat × Clause) => decide (m.1.1 = i)) = 1 :=
        countP_key_one (fun m : (Nat × Clause) × (Nat × Clause) => m.1.1) i
          hnodup hmem
      have hR : (removedRecs fromCs toCs).countP
          (fun f : Nat × Clause => decide (f.1 = i)) = 0 := by
        rw [List.countP_eq_zero]
        intro f hf
        simp only [removedRecs, List.mem_filter] at hf
        obtain ⟨hfFR, hkeep⟩ := hf
        simp only [decide_eq_true_eq]
        intro hfi
        obtain ⟨m, hmMS, hmi⟩ := List.mem_map.mp hmem
        have hany : ((simMatches fromCs toCs).any
            (fun m => m.1.1 == f.1)) = true :=
          List.any_eq_true.mpr ⟨m, hmMS, by simp [hmi, hfi]⟩
        rw [hany] at hkeep
        simp at hkeep
      omega
    · have hM : (simMatches fromCs toCs).countP
          (fun m : (Nat × Clause) × (Nat × Clause) => decide (m.1.1 = i)) = 0 := by
        rw [List.countP_eq_zero]
        intro m hm
        simp only [decide_eq_true_eq]
        intro hmi
        exact hmem (List.mem_map.mpr ⟨m, hm, hmi⟩)
      have hR : (removedRecs fromCs toCs).countP
          (fun f : Nat × Clause => decide (f.1 = i)) = 1 := by
        rw [removedRecs, List.countP_filter, ← hFR1]
        apply countP_ext
        intro f hf
        by_cases hfi : f.1 = i
        · have hany : ((simMatches fromCs toCs).any
              (fun m => m.1.1 == f.1)) = false := by
            by_contra hcon
            rw [Bool.not_eq_false, List.any_eq_true] at hcon
            obtain ⟨m, hmMS, hbeq⟩ := hcon
            rw [beq_iff_eq] at hbeq
            exact hmem (List.mem_map.mpr ⟨m, hmMS, by rw [hbeq, hfi]⟩)
          rw [hany]
          simp
        · simp [hfi]
      omega

theorem detect_to_count (fromCs toCs : List Clause) (j : Nat)
    (hj : j < toCs.length) :
    (detectChanges fromCs toCs).countP
      (fun ch => decide (toIndexOf ch = some j)) = 1 := by
  have hidx : (indexed toCs).countP (fun p => decide (p.1 = j)) = 1 := by
    rw [indexed, countP_indexedFrom]
    rw [if_pos ⟨Nat.zero_le j, by omega⟩]
  have hsplit : (exactMatches fromCs toCs).countP
      (fun m : (Nat × Clause) × (Nat × Clause) => decide (m.2.1 = j)) +
      (exactLeftoverTo fromCs toCs).countP (fun p => decide (p.1 = j)) = 1 := by
    unfold exactMatches exactLeftoverTo
    have h0 := (exactPhase_perm_to (indexed fromCs) (indexed toCs)).countP_eq
      (fun p => decide (p.1 = j))
    rw [List.countP_append, List.countP_map] at h0
    exact h0.trans hidx
  have e1 : ∀ m : (Nat × Clause) × (Nat × Clause),
      ((fun ch => decide (toIndexOf ch = some j)) ∘ mkUnchanged) m =
        (fun m : (Nat × Clause) × (Nat × Clause) => decide (m.2.1 = j)) m := by
    intro m
    simp [mkUnchanged, toIndexOf]
  have e2 : ∀ m : (Nat × Clause) × (Nat × Clause),
      ((fun ch => decide (toIndexOf ch = some j)) ∘ mkMatched) m =
        (fun m : (Nat × Clause) × (Nat × Clause) => decide (m.2.1 = j)) m := by
    intro m
    simp [mkMatched, toIndexOf]
  have e3 : ∀ f : Nat × Clause,
      ((fun ch => decide (toIndexOf ch = some j)) ∘ mkRemoved) f =
        (fun _ : Nat × Clause => false) f := by
    intro f
    simp [mkRemoved, toIndexOf]
  have e4 : ∀ t : Nat × Clause,
      ((fun ch => decide (toIndexOf ch = some j)) ∘ mkAdded) t =
        (fun t : Nat × Clause => decide (t.1 = j)) t := by
    intro t
    simp [mkAdded, toIndexOf]
  have h3 : (removedRecs fromCs toCs).countP (fun _ : Nat × Clause => false) = 0 := by
    rw [List.countP_eq_zero]
    intro a _
    simp
  rw [detectChanges, List.countP_append, List.countP_append, List.countP_append,
    List.countP_map, List.countP_map, List.countP_map, List.countP_map,
    countP_ext (fun m _ => e1 m), countP_ext (fun m _ => e2 m),
    countP_ext (fun f _ => e3 f), countP_ext (fun t _ => e4 t), h3]
  have hnodup : ((simMatches fromCs toCs).map
      (fun m : (Nat × Clause) × (Nat × Clause) => m.2.1)).Nodup := by
    unfold simMatches
    exact (greedyAux_snd _ [] []).1
  by_cases hTR : (exactLeftoverTo fromCs toCs).countP
      (fun p => decide (p.1 = j)) = 0
  · have hnone : ∀ p ∈ exactLeftoverTo fromCs toCs, ¬(p.1 = j) := by
      intro p hp
      have := List.countP_eq_zero.mp hTR p hp
      simpa using this
    have hM : (simMatches fromCs toCs).countP
        (fun m : (Nat × Clause) × (Nat × Clause) => decide (m.2.1 = j)) = 0 := by
      rw [List.countP_eq_zero]
      intro m hm
      simp only [decide_eq_true_eq]
      exact hnone m.2 (simMatches_mem hm).2
    have hA : (addedRecs fromCs toCs).countP
        (fun t : Nat × Clause => decide (t.1 = j)) = 0 := by
      rw [List.countP_eq_zero]
      intro t ht
      simp only [addedRecs, List.mem_filter] at ht
      simp only [decide_eq_true_eq]
      exact hnone t ht.1
    omega
  · have hTR1 : (exactLeftoverTo fromCs toCs).countP
        (fun p => decide (p.1 = j)) = 1 := by omega
    have hE0 : (exactMatches fromCs toCs).countP
        (fun m : (Nat × Clause) × (Nat × Clause) => decide (m.2.1 = j)) = 0 := by
      omega
    by_cases hmem : j ∈ (simMatches fromCs toCs).map
        (fun m : (Nat × Clause) × (Nat × Clause) => m.2.1)
    · have hM : (simMatches fromCs toCs).countP
          (fun m : (Nat × Clause) × (Nat × Clause) => decide (m.2.1 = j)) = 1 :=
        countP_key_one (fun m : (Nat × Clause) × (Nat × Clause) => m.2.1) j
          hnodup hmem
      have hA : (addedRecs fromCs toCs).countP
          (fun t : Nat × Clause => decide (t.1 = j)) = 0 := by
        rw [List.countP_eq_zero]
        intro t ht
        simp only [addedRecs, List.mem_filter] at ht
        obtain ⟨htTR, hkeep⟩ := ht
        simp only [decide_eq_true_eq]
        intro htj
        obtain ⟨m, hmMS, hmj⟩ := List.mem_map.mp hmem
        have hany : ((simMatches fromCs toCs).any
            (fun m => m.2.1 == t.1)) = true :=
          List.any_eq_true.mpr ⟨m, hmMS, by simp [hmj, htj]⟩
        rw [hany] at hkeep
        simp at hkeep
      omega
    · have hM : (simMatches fromCs toCs).countP
          (fun m : (Nat × Clause) × (Nat × Clause) => decide (m.2.1 = j)) = 0 := by
        rw [List.countP_eq_zero]
        intro m hm
        simp only [decide_eq_true_eq]
        intro hmj
        exact hmem (List.mem_map.mpr ⟨m, hm, hmj⟩)
      have hA : (addedRecs fromCs toCs).countP
          (fun t : Nat × Clause => decide (t.1 = j)) = 1 := by
        rw [addedRecs, List.countP_filter, ← hTR1]
        apply countP_ext
        intro t ht
        by_cases htj : t.1 = j
        · have hany : ((simMatches fromCs toCs).any
              (fun m => m.2.1 == t.1)) = false := by
            by_contra hcon
            rw [Bool.not_eq_false, List.any_eq_true] at hcon
            obtain ⟨m, hmMS, hbeq⟩ := hcon
            rw [beq_iff_eq] at hbeq
            exact hmem (List.mem_map.mpr ⟨m, hmMS, by rw [hbeq, htj]⟩)
          rw [hany]
          simp
        · simp [htj]
      omega

/-- C1: every clause of the from version and every clause of the to version
is covered by exactly one change record of the drift detector for that
version pair: counted over the emitted change list, each from-side index
below the from length occurs exactly once, and each to-side index below the
to length occurs exactly once. -/
theorem drift_detector_completeness (fromCs toCs : List Clause) (i j : Nat)
    (hi : i < fromCs.length) (hj : j < toCs.length) :
    (detectChanges fromCs toCs).countP
      (fun ch => decide (fromIndexOf ch = some i)) = 1 ∧
    (detectChanges fromCs toCs).countP
      (fun ch => decide (toIndexOf ch = some j)) = 1 :=
  ⟨detect_from_count fromCs toCs i hi, detect_to_count fromCs toCs j hj⟩

theorem drift_detector_completeness_witness :
    (detectChanges [clauseW] [clauseW]).countP
      (fun ch => decide (fromIndexOf ch = some 0)) = 1 ∧
    (detectChanges [clauseW] [clauseW]).countP
      (fun ch => decide (toIndexOf ch = some 0)) = 1 :=
  drift_detector_completeness [clauseW] [clauseW] 0 0 (by decide) (by decide)

theorem indexedFrom_map_snd {α : Type} (n : Nat) (l : List α) :
    (indexedFrom n l).map Prod.snd = l := by
  induction l generalizing n with
  | nil => simp [indexedFrom]
  | cons a as ih => simp [indexedFrom, ih]

theorem indexed_map_text (l : List Clause) :
    (indexed l).map (fun f : Nat × Clause => f.2.text) = l.map Clause.text := by
  rw [indexed, show (fun f : Nat × Clause => f.2.text) =
    (Clause.text ∘ Prod.snd) from rfl, ← List.map_map, indexedFrom_map_snd]
/-- C3 counterexample: the declared change type union of the frontend API
Change interface is exactly added, removed, modified, rewritten, so the
unchanged value claimed to be a member of the change type value set is not
representable in it. -/
theorem unchanged_not_in_api_change_types :
    "unchanged" ∉ changeTypeValues ∧
    changeTypeValues = ["added", "removed", "modified", "rewritten"] := by decide


theorem exactPhase_finds_text (fs ts : List (Nat × Clause)) (s : String)
    (hf : s ∈ fs.map (fun f : Nat × Clause => f.2.text))
    (ht : s ∈ ts.map (fun t : Nat × Clause => t.2.text)) :
    ∃ m ∈ (exactPhase fs ts).1, m.1.2.text = s ∧ m.2.2.text = s := by
  induction fs generalizing ts with
  | nil => simp at hf
  | cons g fs ih =>
    rcases hE : extractFirst (fun t => t.2.text == g.2.text) ts with ⟨o, ts1⟩
    rcases o with _ | t0
    · simp only [exactPhase, hE]
      rw [List.map_cons] at hf
      rcases List.mem_cons.mp hf with rfl | hf2
      · exfalso
        obtain ⟨t, htmem, htext⟩ := List.mem_map.mp ht
        have := extractFirst_none hE t htmem
        simp [htext] at this
      · exact ih ts hf2 ht
    · simp only [exactPhase, hE]
      have ht0 : t0.2.text = g.2.text := by
        have := extractFirst_found hE
        simpa using this
      rw [List.map_cons] at hf
      rcases List.mem_cons.mp hf with rfl | hf2
      · exact ⟨(g, t0), List.mem_cons_self _ _, rfl, ht0⟩
      · by_cases hs : s = g.2.text
        · refine ⟨(g, t0), List.mem_cons_self _ _, hs.symm, ?_⟩
          rw [ht0]
          exact hs.symm
        · have hts1 : s ∈ ts1.map (fun t : Nat × Clause => t.2.text) := by
            have hperm := extractFirst_perm hE
            have hmm := (hperm.map (fun t : Nat × Clause => t.2.text)).mem_iff.mp ht
            rw [List.map_cons] at hmm
            rcases List.mem_cons.mp hmm with h | h
            · exact absurd (h.trans ht0) hs
            · exact h
          obtain ⟨m, h1, h2⟩ := ih ts1 hf2 hts1
          exact ⟨m, List.mem_cons_of_mem _ h1, h2⟩

/-- C3 amended: in the modelled drift detector, a clause whose text is
byte-identical in both versions yields, with no further proviso, an unchanged
change record for that text, pairing a from-clause and a to-clause of exactly
that text with similarity one, regardless of position shift; however the
unchanged value is not a member of the frontend API's declared change type
union. -/
theorem identity_collapse_amended (fromCs toCs : List Clause) (c : Clause)
    (hc : c ∈ fromCs) (ht : c.text ∈ toCs.map Clause.text) :
    (∃ ch ∈ detectChanges fromCs toCs,
        (∃ i c2, ch.fromClause = some (i, c2) ∧ c2.text = c.text) ∧
        (∃ j t2, ch.toClause = some (j, t2) ∧ t2.text = c.text) ∧
        ch.changeType = ChangeType.unchanged ∧ ch.similarity = 1) ∧
    "unchanged" ∉ changeTypeValues := by
  refine ⟨?_, by decide⟩
  have hf : c.text ∈ (indexed fromCs).map (fun f : Nat × Clause => f.2.text) := by
    rw [indexed_map_text]
    exact List.mem_map_of_mem Clause.text hc
  have ht2 : c.text ∈ (indexed toCs).map (fun t : Nat × Clause => t.2.text) := by
    rw [indexed_map_text]
    exact ht
  obtain ⟨m, hmem, hm1, hm2⟩ :=
    exactPhase_finds_text (indexed fromCs) (indexed toCs) c.text hf ht2
  have hmm : mkUnchanged m ∈ (exactMatches fromCs toCs).map mkUnchanged := by
    unfold exactMatches
    exact List.mem_map_of_mem mkUnchanged hmem
  refine ⟨mkUnchanged m, ?_, ⟨m.1.1, m.1.2, rfl, hm1⟩, ⟨m.2.1, m.2.2, rfl, hm2⟩,
    rfl, rfl⟩
  rw [detectChanges]
  exact List.mem_append_left _ (List.mem_append_left _ (List.mem_append_left _ hmm))

theorem identity_collapse_amended_witness :
    (∃ ch ∈ detectChanges [clauseW] [clauseW],
        (∃ i c2, ch.fromClause = some (i, c2) ∧ c2.text = clauseW.text) ∧
        (∃ j t2, ch.toClause = some (j, t2) ∧ t2.text = clauseW.text) ∧
        ch.changeType = ChangeType.unchanged ∧ ch.similarity = 1) ∧
    "unchanged" ∉ changeTypeValues :=
  identity_collapse_amended [clauseW] [clauseW] clauseW (by decide) (by decide)
